import Mathlib

/-!
Verification of the pairwise photo-ranking and clustering core of
`a-shot-picker` (src/app.js), shallowly embedded in Lean 4.

Ratings are modelled as exact real numbers; candidate records carry an
id, an Elo rating and a comparison count, mirroring the `photo` objects
the JavaScript code mutates (`photo.elo`, `photo.comparisons`).
-/

/-- A candidate under ranking: `{id, elo, comparisons}`.  The rating type is
a parameter so that the scheduler and confidence estimator (which only
compare ratings) stay executable; the Elo updates instantiate `R := ℝ`. -/
structure Candidate (R : Type) where
  id : ℕ
  elo : R
  comparisons : ℕ
deriving Repr

/-- `const ELO_K = 32` (src/app.js line 69). -/
def ELO_K : ℝ := 32

/-- `expectedScore(ratingA, ratingB)` — src/app.js lines 359–361. -/
noncomputable def expectedScore (ratingA ratingB : ℝ) : ℝ :=
  1 / (1 + (10 : ℝ) ^ ((ratingB - ratingA) / 400))

/-- `updateEloRatings(winner, loser)` — src/app.js lines 363–373.  The JS
code mutates the two records in place; the embedding returns the updated
pair.  Both expected scores are computed from the pre-update ratings,
exactly as the `const` bindings do in the source. -/
noncomputable def updateEloRatings (winner loser : Candidate ℝ) :
    Candidate ℝ × Candidate ℝ :=
  let expectedWin := expectedScore winner.elo loser.elo
  let expectedLose := expectedScore loser.elo winner.elo
  ({ winner with
      elo := winner.elo + ELO_K * (1 - expectedWin)
      comparisons := winner.comparisons + 1 },
   { loser with
      elo := loser.elo + ELO_K * (0 - expectedLose)
      comparisons := loser.comparisons + 1 })

/-- `updateEloTie(photoA, photoB)` — src/app.js lines 375–385. -/
noncomputable def updateEloTie (photoA photoB : Candidate ℝ) :
    Candidate ℝ × Candidate ℝ :=
  let expectedA := expectedScore photoA.elo photoB.elo
  let expectedB := expectedScore photoB.elo photoA.elo
  ({ photoA with
      elo := photoA.elo + ELO_K * (0.5 - expectedA)
      comparisons := photoA.comparisons + 1 },
   { photoB with
      elo := photoB.elo + ELO_K * (0.5 - expectedB)
      comparisons := photoB.comparisons + 1 })

lemma expectedScore_pos (a b : ℝ) : 0 < 1 + (10 : ℝ) ^ ((b - a) / 400) := by
  have h := Real.rpow_pos_of_pos (by norm_num : (0:ℝ) < 10) ((b - a) / 400)
  linarith

/-- The two expected scores of a matchup always sum to 1. -/
lemma expectedScore_add_symm (a b : ℝ) :
    expectedScore a b + expectedScore b a = 1 := by
  unfold expectedScore
  have hab : (a - b) / 400 = -((b - a) / 400) := by ring
  have hten : (0:ℝ) ≤ 10 := by norm_num
  have hpos : 0 < (10 : ℝ) ^ ((b - a) / 400) :=
    Real.rpow_pos_of_pos (by norm_num) _
  rw [hab, Real.rpow_neg hten]
  have hne : (10 : ℝ) ^ ((b - a) / 400) ≠ 0 := ne_of_gt hpos
  field_simp
  ring

lemma expectedScore_self (r : ℝ) : expectedScore r r = 1 / 2 := by
  unfold expectedScore
  rw [show (r - r) / 400 = 0 by ring, Real.rpow_zero]
  norm_num

/-- C1: `updateEloRatings` implements the Elo rule with K = 32: the winner
gains `32·(1 − expected(winner, loser))`, the loser gains
`32·(0 − expected(loser, winner))` with
`expected(a,b) = 1/(1 + 10^((b.rating − a.rating)/400))`, both comparison
counts increase by 1; and for two candidates both at rating 1500 with
comparison count 0, the winner ends at exactly 1516, the loser at 1484,
and both counts at 1. -/
theorem applyWin_elo_rule_and_1500_case :
    (∀ winner loser : Candidate ℝ,
      updateEloRatings winner loser =
        ({ winner with
            elo := winner.elo +
              32 * (1 - 1 / (1 + (10 : ℝ) ^ ((loser.elo - winner.elo) / 400)))
            comparisons := winner.comparisons + 1 },
         { loser with
            elo := loser.elo +
              32 * (0 - 1 / (1 + (10 : ℝ) ^ ((winner.elo - loser.elo) / 400)))
            comparisons := loser.comparisons + 1 })) ∧
    (∀ idA idB : ℕ,
      updateEloRatings ⟨idA, 1500, 0⟩ ⟨idB, 1500, 0⟩ =
        (⟨idA, 1516, 1⟩, ⟨idB, 1484, 1⟩)) := by
  constructor
  · intro winner loser
    simp only [updateEloRatings, expectedScore, ELO_K]
  · intro idA idB
    simp only [updateEloRatings, ELO_K, expectedScore_self]
    norm_num [Prod.ext_iff, Candidate.mk.injEq]

/-- C10: in exact real arithmetic both `updateEloRatings` and
`updateEloTie` conserve the sum of the two ratings, and a tie between two
equally-rated candidates leaves both ratings individually unchanged. -/
theorem elo_updates_conserve_rating_sum :
    (∀ winner loser : Candidate ℝ,
      (updateEloRatings winner loser).1.elo + (updateEloRatings winner loser).2.elo =
        winner.elo + loser.elo) ∧
    (∀ a b : Candidate ℝ,
      (updateEloTie a b).1.elo + (updateEloTie a b).2.elo = a.elo + b.elo) ∧
    (∀ (idA idB : ℕ) (r : ℝ) (cA cB : ℕ),
      (updateEloTie ⟨idA, r, cA⟩ ⟨idB, r, cB⟩).1.elo = r ∧
      (updateEloTie ⟨idA, r, cA⟩ ⟨idB, r, cB⟩).2.elo = r) := by
  refine ⟨?_, ?_, ?_⟩
  · intro winner loser
    have h := expectedScore_add_symm winner.elo loser.elo
    simp only [updateEloRatings, ELO_K]
    nlinarith [h]
  · intro a b
    have h := expectedScore_add_symm a.elo b.elo
    simp only [updateEloTie, ELO_K]
    nlinarith [h]
  · intro idA idB r cA cB
    have h := expectedScore_self r
    constructor <;> · simp only [updateEloTie, ELO_K, h]
                      norm_num

/-!
## Fingerprint distance and clustering (src/app.js lines 1221–1234, 1290–1403)

A fingerprint is a list of real-valued intensities; a missing fingerprint
(decode failure / cache miss) is `none`.  Distances live in `EReal` so that
the JavaScript `Infinity` return value is `⊤`.
-/

/-- The accumulated `sum += diff * diff` of the loop in
`fingerprintDistance` — src/app.js lines 1226–1230. -/
def sqDiffSum (l1 l2 : List ℝ) : ℝ :=
  (List.zipWith (fun a b => (a - b) * (a - b)) l1 l2).sum

/-- `fingerprintDistance(fp1, fp2)` — src/app.js lines 1221–1234.
Missing fingerprint or length mismatch yields `Infinity` (`⊤`); otherwise
the RMS of per-position differences, `sqrt(sum / fp1.length)`. -/
noncomputable def fingerprintDistance (fp1 fp2 : Option (List ℝ)) : EReal :=
  match fp1, fp2 with
  | some l1, some l2 =>
      if l1.length = l2.length then
        ((Real.sqrt (sqDiffSum l1 l2 / l1.length) : ℝ) : EReal)
      else ⊤
  | _, _ => ⊤

lemma sqDiffSum_nonneg (l1 l2 : List ℝ) : 0 ≤ sqDiffSum l1 l2 := by
  refine List.sum_nonneg ?_
  intro x hx
  induction l1 generalizing l2 with
  | nil => simp at hx
  | cons a t ih =>
    cases l2 with
    | nil => simp at hx
    | cons b t2 =>
      simp only [List.zipWith_cons_cons, List.mem_cons] at hx
      rcases hx with h | h
      · subst h; exact mul_self_nonneg _
      · exact ih t2 h

lemma sqDiffSum_comm (l1 l2 : List ℝ) : sqDiffSum l1 l2 = sqDiffSum l2 l1 := by
  induction l1 generalizing l2 with
  | nil => cases l2 <;> rfl
  | cons a t ih =>
    cases l2 with
    | nil => rfl
    | cons b t2 =>
      simp only [sqDiffSum, List.zipWith_cons_cons, List.sum_cons] at *
      rw [ih t2]; ring_nf

lemma sqDiffSum_self (l : List ℝ) : sqDiffSum l l = 0 := by
  induction l with
  | nil => rfl
  | cons a t ih =>
    simp only [sqDiffSum, List.zipWith_cons_cons, List.sum_cons] at *
    rw [ih]; ring

lemma sqDiffSum_pos_of_ne {l1 l2 : List ℝ} (hlen : l1.length = l2.length)
    (hne : l1 ≠ l2) : 0 < sqDiffSum l1 l2 := by
  induction l1 generalizing l2 with
  | nil =>
    cases l2 with
    | nil => exact absurd rfl hne
    | cons b t2 => simp at hlen
  | cons a t ih =>
    cases l2 with
    | nil => simp at hlen
    | cons b t2 =>
      simp only [List.length_cons, Nat.succ_inj] at hlen
      by_cases hab : a = b
      · subst hab
        have ht : t ≠ t2 := fun h => hne (by rw [h])
        have := ih hlen ht
        simp only [sqDiffSum, List.zipWith_cons_cons, List.sum_cons] at *
        nlinarith
      · have h1 : 0 < (a - b) * (a - b) := mul_self_pos.mpr (sub_ne_zero.mpr hab)
        have h2 : 0 ≤ sqDiffSum t t2 := sqDiffSum_nonneg t t2
        simp only [sqDiffSum, List.zipWith_cons_cons, List.sum_cons] at *
        nlinarith

lemma sqDiffSum_le_of_bounded {l1 l2 : List ℝ} (hlen : l1.length = l2.length)
    (h1 : ∀ x ∈ l1, 0 ≤ x ∧ x ≤ 255) (h2 : ∀ x ∈ l2, 0 ≤ x ∧ x ≤ 255) :
    sqDiffSum l1 l2 ≤ 65025 * l1.length := by
  induction l1 generalizing l2 with
  | nil => simp [sqDiffSum]
  | cons a t ih =>
    cases l2 with
    | nil => simp at hlen
    | cons b t2 =>
      simp only [List.length_cons, Nat.succ_inj] at hlen
      have ha := h1 a (by simp)
      have hb := h2 b (by simp)
      have hrec := ih hlen (fun x hx => h1 x (by simp [hx]))
        (fun x hx => h2 x (by simp [hx]))
      have hhead : (a - b) * (a - b) ≤ 65025 := by nlinarith [ha.1, ha.2, hb.1, hb.2]
      simp only [sqDiffSum, List.zipWith_cons_cons, List.sum_cons, List.length_cons] at *
      push_cast
      nlinarith

/-- A finite, strictly positive distance between distinct same-length
fingerprints: used for the threshold-0 clustering edge case. -/
lemma fingerprintDistance_not_le_zero_of_ne {l1 l2 : List ℝ} (hne : l1 ≠ l2) :
    ¬ fingerprintDistance (some l1) (some l2) ≤ (((0 : ℝ)) : EReal) := by
  simp only [fingerprintDistance]
  by_cases hlen : l1.length = l2.length
  · rw [if_pos hlen, EReal.coe_le_coe_iff]
    have hlpos : 0 < l1.length := by
      rcases Nat.eq_zero_or_pos l1.length with h0 | h0
      · exfalso
        have e1 : l1 = [] := List.length_eq_zero.mp h0
        have e2 : l2 = [] := List.length_eq_zero.mp (by omega)
        exact hne (e1 ▸ e2 ▸ rfl)
      · exact h0
    have hsum : 0 < sqDiffSum l1 l2 := sqDiffSum_pos_of_ne hlen hne
    have hdiv : 0 < sqDiffSum l1 l2 / l1.length :=
      div_pos hsum (by exact_mod_cast hlpos)
    have := Real.sqrt_pos.mpr hdiv
    linarith
  · rw [if_neg hlen]
    simp

/-- C7: `fingerprintDistance` is reflexive (distance 0 on every nonempty
fingerprint from itself), symmetric, `+∞` when either argument is missing
or the lengths differ, and otherwise equals the RMS
`sqrt(mean((fp1[i]−fp2[i])²))`, which for byte-valued fingerprints lies in
`[0, 255]`. -/
theorem fingerprintDistance_metric_properties :
    (∀ fp : List ℝ, fp ≠ [] →
      fingerprintDistance (some fp) (some fp) = 0) ∧
    (∀ a b : Option (List ℝ),
      fingerprintDistance a b = fingerprintDistance b a) ∧
    (∀ a : Option (List ℝ),
      fingerprintDistance none a = ⊤ ∧ fingerprintDistance a none = ⊤) ∧
    (∀ l1 l2 : List ℝ, l1.length ≠ l2.length →
      fingerprintDistance (some l1) (some l2) = ⊤) ∧
    (∀ l1 l2 : List ℝ, l1.length = l2.length →
      fingerprintDistance (some l1) (some l2) =
        ((Real.sqrt (sqDiffSum l1 l2 / l1.length) : ℝ) : EReal)) ∧
    (∀ l1 l2 : List ℝ, l1 ≠ [] → l1.length = l2.length →
      (∀ x ∈ l1, 0 ≤ x ∧ x ≤ 255) → (∀ x ∈ l2, 0 ≤ x ∧ x ≤ 255) →
      ∃ r : ℝ, fingerprintDistance (some l1) (some l2) = (r : EReal) ∧
        0 ≤ r ∧ r ≤ 255) := by
  refine ⟨?_, ?_, ?_, ?_, ?_, ?_⟩
  · intro fp _
    simp [fingerprintDistance, sqDiffSum_self]
  · intro a b
    match a, b with
    | none, none => rfl
    | none, some l => rfl
    | some l, none => rfl
    | some l1, some l2 =>
      by_cases h : l1.length = l2.length
      · simp only [fingerprintDistance, if_pos h, if_pos h.symm,
          sqDiffSum_comm l1 l2, h]
      · simp only [fingerprintDistance, if_neg h, if_neg (Ne.symm h)]
  · intro a
    exact ⟨by cases a <;> rfl, by cases a <;> rfl⟩
  · intro l1 l2 h
    simp [fingerprintDistance, if_neg h]
  · intro l1 l2 h
    simp [fingerprintDistance, if_pos h]
  · intro l1 l2 hne hlen hb1 hb2
    refine ⟨Real.sqrt (sqDiffSum l1 l2 / l1.length),
      by simp [fingerprintDistance, if_pos hlen], Real.sqrt_nonneg _, ?_⟩
    have hlpos : (0 : ℝ) < l1.length := by
      have : l1.length ≠ 0 := fun h0 => hne (List.length_eq_zero.mp h0)
      exact_mod_cast Nat.pos_of_ne_zero this
    have hsum := sqDiffSum_le_of_bounded hlen hb1 hb2
    have hdiv : sqDiffSum l1 l2 / l1.length ≤ 65025 := by
      rw [div_le_iff₀ hlpos]; nlinarith
    calc Real.sqrt (sqDiffSum l1 l2 / l1.length)
        ≤ Real.sqrt 65025 := Real.sqrt_le_sqrt hdiv
      _ = 255 := by
          rw [show (65025 : ℝ) = 255 ^ 2 by norm_num,
            Real.sqrt_sq (by norm_num : (0:ℝ) ≤ 255)]

/-- Witness for `fingerprintDistance_metric_properties` at the concrete
one-byte fingerprint `[0]`. -/
theorem fingerprintDistance_metric_properties_witness :
    fingerprintDistance (some [(0 : ℝ)]) (some [(0 : ℝ)]) = 0 :=
  fingerprintDistance_metric_properties.1 [(0 : ℝ)] (by simp)

section Clustering

open Classical

/-- The clustering loop of `buildClusters` / `recluster` — src/app.js
lines 1309–1320 and 1379–1390.  `prev` is the previously visited photo
(whose fingerprint the chain rule compares against), `cur` the open
cluster, `rest` the remaining photos.  On `distance ≤ threshold` the photo
joins the open cluster, otherwise the open cluster is closed and a new one
is seeded.  The base case is the final `if (currentCluster.length > 0)
clusters.push(currentCluster)` — src/app.js lines 1343–1345, 1392–1394.
The `≤` test on `EReal` is classically decidable. -/
noncomputable def clusterGo {P : Type} (fps : P → Option (List ℝ)) (t : ℝ)
    (prev : P) (cur : List P) : List P → List (List P)
  | [] => if cur.isEmpty then [] else [cur]
  | p :: rest =>
      if fingerprintDistance (fps prev) (fps p) ≤ ((t : ℝ) : EReal) then
        clusterGo fps t p (cur ++ [p]) rest
      else
        cur :: clusterGo fps t p [p] rest

/-- `buildClusters` / `recluster` — src/app.js lines 1290–1368 and
1371–1403: the first photo seeds the first cluster; an empty photo list
produces no clusters. -/
noncomputable def buildClusters {P : Type} (photos : List P)
    (fps : P → Option (List ℝ)) (t : ℝ) : List (List P) :=
  match photos with
  | [] => []
  | p :: rest => clusterGo fps t p [p] rest

lemma clusterGo_flatten {P : Type} (fps : P → Option (List ℝ)) (t : ℝ) :
    ∀ (rest : List P) (prev : P) (cur : List P), cur ≠ [] →
      (clusterGo fps t prev cur rest).flatten = cur ++ rest := by
  intro rest
  induction rest with
  | nil =>
    intro prev cur hcur
    simp [clusterGo, List.isEmpty_iff, hcur]
  | cons p rest ih =>
    intro prev cur hcur
    by_cases h : fingerprintDistance (fps prev) (fps p) ≤ ((t : ℝ) : EReal)
    · rw [clusterGo, if_pos h, ih p (cur ++ [p]) (by simp)]
      simp
    · rw [clusterGo, if_neg h]
      simp [ih p [p] (by simp)]

lemma clusterGo_ne_nil {P : Type} (fps : P → Option (List ℝ)) (t : ℝ) :
    ∀ (rest : List P) (prev : P) (cur : List P), cur ≠ [] →
      ∀ c ∈ clusterGo fps t prev cur rest, c ≠ [] := by
  intro rest
  induction rest with
  | nil =>
    intro prev cur hcur c hc
    simp [clusterGo, List.isEmpty_iff, hcur] at hc
    simpa [hc]
  | cons p rest ih =>
    intro prev cur hcur c hc
    by_cases h : fingerprintDistance (fps prev) (fps p) ≤ ((t : ℝ) : EReal)
    · rw [clusterGo, if_pos h] at hc
      exact ih p (cur ++ [p]) (by simp) c hc
    · rw [clusterGo, if_neg h] at hc
      rcases List.mem_cons.mp hc with h' | h'
      · simpa [h']
      · exact ih p [p] (by simp) c h'

/-- C9: for every photo sequence, fingerprint lookup and threshold, the
chain-rule clustering is an ordered partition of the input: concatenating
the clusters in order yields the input sequence, and every cluster is
non-empty (hence contiguous, and every photo is in exactly one cluster). -/
theorem buildClusters_ordered_partition {P : Type} (photos : List P)
    (fps : P → Option (List ℝ)) (t : ℝ) (hne : photos ≠ []) :
    (buildClusters photos fps t).flatten = photos ∧
    ∀ c ∈ buildClusters photos fps t, c ≠ [] := by
  match photos with
  | [] => exact absurd rfl hne
  | p :: rest =>
    constructor
    · rw [buildClusters, clusterGo_flatten fps t rest p [p] (by simp)]
      simp
    · intro c hc
      rw [buildClusters] at hc
      exact clusterGo_ne_nil fps t rest p [p] (by simp) c hc

/-- Witness for `buildClusters_ordered_partition` on the two-photo list
`[0, 1]` with no fingerprints cached and threshold 0. -/
theorem buildClusters_ordered_partition_witness :
    (buildClusters [0, 1] (fun _ : ℕ => (none : Option (List ℝ))) 0).flatten
        = [0, 1] ∧
    ∀ c ∈ buildClusters [0, 1] (fun _ : ℕ => (none : Option (List ℝ))) 0,
      c ≠ [] :=
  buildClusters_ordered_partition [0, 1] (fun _ => none) 0 (by simp)

lemma clusterGo_all_far {P : Type} (fps : P → Option (List ℝ)) (t : ℝ) :
    ∀ (rest : List P) (prev : P) (cur : List P),
      List.Chain'
        (fun p q => ¬ fingerprintDistance (fps p) (fps q) ≤ ((t : ℝ) : EReal))
        (prev :: rest) →
      cur ≠ [] →
      clusterGo fps t prev cur rest = cur :: rest.map (fun p => [p]) := by
  intro rest
  induction rest with
  | nil =>
    intro prev cur _ hcur
    simp [clusterGo, List.isEmpty_iff, hcur]
  | cons p rest ih =>
    intro prev cur hchain hcur
    rw [List.chain'_cons] at hchain
    rw [clusterGo, if_neg hchain.1, ih p [p] hchain.2 (by simp)]
    simp

lemma clusterGo_all_near {P : Type} (fps : P → Option (List ℝ)) (t : ℝ) :
    ∀ (rest : List P) (prev : P) (cur : List P),
      List.Chain'
        (fun p q => fingerprintDistance (fps p) (fps q) ≤ ((t : ℝ) : EReal))
        (prev :: rest) →
      cur ≠ [] →
      clusterGo fps t prev cur rest = [cur ++ rest] := by
  intro rest
  induction rest with
  | nil =>
    intro prev cur _ hcur
    simp [clusterGo, List.isEmpty_iff, hcur]
  | cons p rest ih =>
    intro prev cur hchain hcur
    rw [List.chain'_cons] at hchain
    rw [clusterGo, if_pos hchain.1, ih p (cur ++ [p]) hchain.2 (by simp)]
    simp

/-- C8: cluster edge policy.  With threshold 0, a fingerprint present for
every photo and all fingerprints pairwise distinct, every photo becomes
its own singleton cluster, in input order; with a threshold strictly
larger than every consecutive pairwise distance, all photos form one
single cluster in input order. -/
theorem buildClusters_threshold_edges {P : Type} (photos : List P)
    (fps : P → Option (List ℝ)) :
    (photos ≠ [] → (∀ p ∈ photos, fps p ≠ none) →
      (photos.map fps).Pairwise (· ≠ ·) →
      buildClusters photos fps 0 = photos.map (fun p => [p])) ∧
    (∀ t : ℝ, photos ≠ [] →
      List.Chain'
        (fun p q => fingerprintDistance (fps p) (fps q) < ((t : ℝ) : EReal))
        photos →
      buildClusters photos fps t = [photos]) := by
  constructor
  · intro hne hpresent hdistinct
    have hpw : photos.Pairwise (fun p q => fps p ≠ fps q) :=
      (List.pairwise_map).mp hdistinct
    have hchain : List.Chain'
        (fun p q =>
          ¬ fingerprintDistance (fps p) (fps q) ≤ (((0 : ℝ)) : EReal))
        photos := by
      refine List.Pairwise.chain' ?_
      refine hpw.imp_of_mem ?_
      intro p q hp hq hne'
      obtain ⟨lp, hlp⟩ := Option.ne_none_iff_exists'.mp (hpresent p hp)
      obtain ⟨lq, hlq⟩ := Option.ne_none_iff_exists'.mp (hpresent q hq)
      rw [hlp, hlq]
      refine fingerprintDistance_not_le_zero_of_ne ?_
      intro h
      exact hne' (by rw [hlp, hlq, h])
    match photos with
    | [] => exact absurd rfl hne
    | p :: rest =>
      rw [buildClusters, clusterGo_all_far fps 0 rest p [p] hchain (by simp)]
      simp
  · intro t hne hchain
    have hchain' : List.Chain'
        (fun p q => fingerprintDistance (fps p) (fps q) ≤ ((t : ℝ) : EReal))
        photos := hchain.imp (fun a b h => le_of_lt h)
    match photos with
    | [] => exact absurd rfl hne
    | p :: rest =>
      rw [buildClusters, clusterGo_all_near fps t rest p [p] hchain' (by simp)]
      rfl

/-- Witness for `buildClusters_threshold_edges`: two photos with the
distinct one-byte fingerprints `[0]` and `[255]` at threshold 0 split into
singleton clusters. -/
theorem buildClusters_threshold_edges_witness :
    buildClusters [0, 1]
      (fun p : ℕ => if p = 0 then some [(0 : ℝ)] else some [(255 : ℝ)]) 0 =
      [[0], [1]] :=
  (buildClusters_threshold_edges [0, 1]
      (fun p : ℕ => if p = 0 then some [(0 : ℝ)] else some [(255 : ℝ)])).1
    (by simp)
    (by intro p hp; rcases List.mem_cons.mp hp with h | h
        · simp [h]
        · simp at h; simp [h])
    (by norm_num)


end Clustering

/-!
## Pairing scheduler (src/app.js lines 387–449)

`getNextPair` consults `state.candidates` and `state.comparisonHistory`.
The two `sort(() => Math.random() - 0.5)` shuffles produce arbitrary
permutations of their inputs and `Math.floor(Math.random() * (len - 1))`
an arbitrary starting offset, so the embedding takes the two shuffled
lists and the offset as parameters; theorems constrain the shuffles to be
permutations, which is the only property the JavaScript shuffle
guarantees. -/

/-- One entry of `state.comparisonHistory`, pushed by `confirmComparison`
or `skipComparison` — src/app.js lines 1736–1744, 1763–1771. -/
structure ComparisonRecord (R : Type) where
  a : ℕ
  b : ℕ
  winner : Option ℕ
  prevEloA : R
  prevEloB : R
  prevCompA : ℕ
  prevCompB : ℕ

/-- `history.slice(-k)`: the last `k` entries (the whole list when it is
shorter). -/
def lastEntries {α : Type} (k : ℕ) (l : List α) : List α :=
  l.drop (l.length - k)

/-- The `recentlyCompared` test of src/app.js lines 415–417 and 437–439:
does the pair appear among the last `k` history entries, in either
orientation? -/
def recentlyCompared {R : Type} (k : ℕ) (hist : List (ComparisonRecord R))
    (x y : Candidate R) : Bool :=
  (lastEntries k hist).any
    (fun h => (h.a == x.id && h.b == y.id) || (h.a == y.id && h.b == x.id))

/-- The comparator of src/app.js lines 392–398 as a total Boolean order:
fewer comparisons first, then higher Elo first. -/
def sortedByComparisons {R : Type} [LinearOrder R]
    (cands : List (Candidate R)) : List (Candidate R) :=
  cands.mergeSort (fun x y =>
    decide (x.comparisons < y.comparisons) ||
      (x.comparisons == y.comparisons && decide (y.elo ≤ x.elo)))

/-- `sortedByComparisons[0].comparisons || 0` — src/app.js line 401. -/
def minComparisons {R : Type} [LinearOrder R]
    (cands : List (Candidate R)) : ℕ :=
  (((sortedByComparisons cands).head?).map (fun p => p.comparisons)).getD 0

/-- The under-compared subset — src/app.js line 402. -/
def underCompared {R : Type} [LinearOrder R]
    (cands : List (Candidate R)) : List (Candidate R) :=
  (sortedByComparisons cands).filter
    (fun p => p.comparisons ≤ minComparisons cands + 1)

/-- All index pairs `(shuffled[i], shuffled[j])` with `i < j`, in the
order the nested loops of src/app.js lines 410–423 visit them. -/
def pairsOf {α : Type} : List α → List (α × α)
  | [] => []
  | x :: xs => xs.map (fun y => (x, y)) ++ pairsOf xs

/-- The step-2 search: first pair of under-compared photos (in shuffled
order) not compared within the last 10 history entries — src/app.js
lines 409–423. -/
def findFreshPair {R : Type} (hist : List (ComparisonRecord R))
    (shuffled : List (Candidate R)) : Option (Candidate R × Candidate R) :=
  (pairsOf shuffled).find? (fun q => ! recentlyCompared 10 hist q.1 q.2)

/-- Elo-descending sort — src/app.js line 427. -/
def sortedByElo {R : Type} [LinearOrder R]
    (cands : List (Candidate R)) : List (Candidate R) :=
  cands.mergeSort (fun x y => decide (y.elo ≤ x.elo))

/-- The classic-Swiss fallback scan over adjacent sorted pairs starting at
a random offset — src/app.js lines 430–444. -/
def swissScan {R : Type} (hist : List (ComparisonRecord R))
    (sorted : List (Candidate R)) (startOffset : ℕ) :
    Option (Candidate R × Candidate R) :=
  (List.range (sorted.length - 1)).findSome? (fun i =>
    let idx := (i + startOffset) % (sorted.length - 1)
    match sorted[idx]?, sorted[idx + 1]? with
    | some x, some y =>
        if recentlyCompared 15 hist x y then none else some (x, y)
    | _, _ => none)

/-- The last-resort random pair, `[shuffledAll[0], shuffledAll[1]]` —
src/app.js lines 446–448. -/
def lastResort {R : Type} (shuffledAll : List (Candidate R)) :
    Option (Candidate R × Candidate R) :=
  match shuffledAll with
  | x :: y :: _ => some (x, y)
  | _ => none

/-- `getNextPair()` — src/app.js lines 388–449.  `shuffledUnder` stands
for the shuffle of the under-compared subset, `shuffledAll` for the
last-resort shuffle of the whole pool, `startOffset` for the random
Swiss starting offset. -/
def getNextPair {R : Type} [LinearOrder R] (cands : List (Candidate R))
    (hist : List (ComparisonRecord R))
    (shuffledUnder shuffledAll : List (Candidate R)) (startOffset : ℕ) :
    Option (Candidate R × Candidate R) :=
  if cands.length < 2 then none
  else
    match
      (if 2 ≤ (underCompared cands).length then findFreshPair hist shuffledUnder
       else none) with
    | some q => some q
    | none =>
      match swissScan hist (sortedByElo cands) startOffset with
      | some q => some q
      | none => lastResort shuffledAll

lemma sortedByComparisons_perm {R : Type} [LinearOrder R]
    (cands : List (Candidate R)) : (sortedByComparisons cands).Perm cands :=
  List.mergeSort_perm cands _

lemma sortedByElo_perm {R : Type} [LinearOrder R]
    (cands : List (Candidate R)) : (sortedByElo cands).Perm cands :=
  List.mergeSort_perm cands _

lemma underCompared_sublist {R : Type} [LinearOrder R]
    (cands : List (Candidate R)) :
    (underCompared cands).Sublist (sortedByComparisons cands) :=
  List.filter_sublist _

lemma underCompared_mem {R : Type} [LinearOrder R]
    {cands : List (Candidate R)} {p : Candidate R}
    (h : p ∈ underCompared cands) : p ∈ cands :=
  (sortedByComparisons_perm cands).mem_iff.mp
    ((underCompared_sublist cands).mem h)

lemma underCompared_ids_nodup {R : Type} [LinearOrder R]
    {cands : List (Candidate R)}
    (h : (cands.map (fun p => p.id)).Nodup) :
    ((underCompared cands).map (fun p => p.id)).Nodup :=
  (((underCompared_sublist cands).map _).nodup
    (((sortedByComparisons_perm cands).map _).nodup_iff.mpr h))

lemma pairsOf_mem {α : Type} {x y : α} :
    ∀ {l : List α}, (x, y) ∈ pairsOf l → x ∈ l ∧ y ∈ l := by
  intro l
  induction l with
  | nil => intro h; simp [pairsOf] at h
  | cons a t ih =>
    intro h
    rw [pairsOf, List.mem_append] at h
    rcases h with h | h
    · rcases List.mem_map.mp h with ⟨z, hz, hxy⟩
      obtain ⟨h1, h2⟩ : a = x ∧ z = y := by
        simpa [Prod.ext_iff] using hxy
      subst h1; subst h2
      exact ⟨List.mem_cons_self a t, List.mem_cons_of_mem a hz⟩
    · obtain ⟨h1, h2⟩ := ih h
      exact ⟨List.mem_cons_of_mem a h1, List.mem_cons_of_mem a h2⟩

lemma pairsOf_map_ne {α : Type} {β : Type} (f : α → β) {x y : α} :
    ∀ {l : List α}, (l.map f).Nodup → (x, y) ∈ pairsOf l → f x ≠ f y := by
  intro l
  induction l with
  | nil => intro _ h; simp [pairsOf] at h
  | cons a t ih =>
    intro hnd h
    rw [List.map_cons, List.nodup_cons] at hnd
    rw [pairsOf, List.mem_append] at h
    rcases h with h | h
    · rcases List.mem_map.mp h with ⟨z, hz, hxy⟩
      obtain ⟨h1, h2⟩ : a = x ∧ z = y := by
        simpa [Prod.ext_iff] using hxy
      subst h1; subst h2
      intro heq
      exact hnd.1 (heq ▸ List.mem_map_of_mem f hz)
    · exact ih hnd.2 h

lemma pairsOf_cover {α : Type} {x y : α} :
    ∀ {l : List α}, x ∈ l → y ∈ l → x ≠ y →
      (x, y) ∈ pairsOf l ∨ (y, x) ∈ pairsOf l := by
  intro l
  induction l with
  | nil => intro h; simp at h
  | cons a t ih =>
    intro hx hy hne
    rcases List.mem_cons.mp hx with rfl | hx'
    · rcases List.mem_cons.mp hy with rfl | hy'
      · exact absurd rfl hne
      · exact Or.inl (by rw [pairsOf, List.mem_append]
                         exact Or.inl (List.mem_map_of_mem _ hy'))
    · rcases List.mem_cons.mp hy with rfl | hy'
      · exact Or.inr (by rw [pairsOf, List.mem_append]
                         exact Or.inl (List.mem_map_of_mem _ hx'))
      · rcases ih hx' hy' hne with h | h
        · exact Or.inl (by rw [pairsOf, List.mem_append]; exact Or.inr h)
        · exact Or.inr (by rw [pairsOf, List.mem_append]; exact Or.inr h)

lemma map_nodup_getElem?_ne {α β : Type} {f : α → β} {l : List α} {i j : ℕ}
    (hnd : (l.map f).Nodup) (hij : i ≠ j) {x y : α}
    (hx : l[i]? = some x) (hy : l[j]? = some y) : f x ≠ f y := by
  have hx' : (l.map f)[i]? = some (f x) := by
    rw [List.getElem?_map, hx]; rfl
  have hy' : (l.map f)[j]? = some (f y) := by
    rw [List.getElem?_map, hy]; rfl
  obtain ⟨hi, hxe⟩ := List.getElem?_eq_some.mp hx'
  obtain ⟨hj, hye⟩ := List.getElem?_eq_some.mp hy'
  intro heq
  exact hij ((hnd.getElem_inj_iff).mp (by rw [hxe, hye, heq]))

lemma swissScan_some {R : Type} {hist : List (ComparisonRecord R)}
    {sorted : List (Candidate R)} {off : ℕ} {x y : Candidate R}
    (hnd : (sorted.map (fun p => p.id)).Nodup)
    (h : swissScan hist sorted off = some (x, y)) :
    x ∈ sorted ∧ y ∈ sorted ∧ x.id ≠ y.id := by
  obtain ⟨i, _, hf⟩ := List.exists_of_findSome?_eq_some h
  simp only at hf
  cases hx : sorted[(i + off) % (sorted.length - 1)]? with
  | none => rw [hx] at hf; simp at hf
  | some x' =>
    cases hy : sorted[(i + off) % (sorted.length - 1) + 1]? with
    | none => rw [hx, hy] at hf; simp at hf
    | some y' =>
      rw [hx, hy] at hf
      cases hrc : recentlyCompared 15 hist x' y' with
      | true => simp [hrc] at hf
      | false =>
        simp only [hrc] at hf
        simp at hf
        obtain ⟨rfl, rfl⟩ := hf
        exact ⟨List.getElem?_mem hx, List.getElem?_mem hy,
          map_nodup_getElem?_ne hnd (by omega) hx hy⟩

/-- C3: `getNextPair` returns `none` iff the candidate pool has fewer than
2 candidates, and any returned pair consists of two distinct candidates
drawn from the pool.  The shuffles are constrained only to be
permutations, and candidate ids are assumed pairwise distinct (the pool
invariant). -/
theorem getNextPair_none_iff_and_distinct_from_pool {R : Type}
    [LinearOrder R] (cands : List (Candidate R))
    (hist : List (ComparisonRecord R))
    (shuffledUnder shuffledAll : List (Candidate R)) (startOffset : ℕ)
    (hids : (cands.map (fun p => p.id)).Nodup)
    (hsu : shuffledUnder.Perm (underCompared cands))
    (hsa : shuffledAll.Perm cands) :
    (getNextPair cands hist shuffledUnder shuffledAll startOffset = none ↔
      cands.length < 2) ∧
    (∀ x y : Candidate R,
      getNextPair cands hist shuffledUnder shuffledAll startOffset =
          some (x, y) →
      x.id ≠ y.id ∧ x ∈ cands ∧ y ∈ cands) := by
  have hnd_su : (shuffledUnder.map (fun p => p.id)).Nodup :=
    ((hsu.map _).nodup_iff).mpr (underCompared_ids_nodup hids)
  have hnd_sa : (shuffledAll.map (fun p => p.id)).Nodup :=
    ((hsa.map _).nodup_iff).mpr hids
  have hnd_se : ((sortedByElo cands).map (fun p => p.id)).Nodup :=
    (((sortedByElo_perm cands).map _).nodup_iff).mpr hids
  by_cases hlen : cands.length < 2
  · rw [getNextPair, if_pos hlen]
    exact ⟨⟨fun _ => hlen, fun _ => rfl⟩, fun x y h => by simp at h⟩
  · rw [getNextPair, if_neg hlen]
    cases h2 : (if 2 ≤ (underCompared cands).length
        then findFreshPair hist shuffledUnder else none) with
    | some q =>
      have h2' : findFreshPair hist shuffledUnder = some q := by
        by_cases hc : 2 ≤ (underCompared cands).length
        · rwa [if_pos hc] at h2
        · rw [if_neg hc] at h2; exact absurd h2 (by simp)
      have hq : q ∈ pairsOf shuffledUnder := List.mem_of_find?_eq_some h2'
      constructor
      · exact ⟨fun hno => by simp at hno, fun hl => absurd hl hlen⟩
      · intro x y hxy
        simp only [Option.some.injEq] at hxy
        subst hxy
        obtain ⟨hx, hy⟩ := pairsOf_mem hq
        exact ⟨pairsOf_map_ne _ hnd_su hq,
          underCompared_mem (hsu.mem_iff.mp hx),
          underCompared_mem (hsu.mem_iff.mp hy)⟩
    | none =>
      cases h3 : swissScan hist (sortedByElo cands) startOffset with
      | some q =>
        constructor
        · exact ⟨fun hno => by simp at hno, fun hl => absurd hl hlen⟩
        · intro x y hxy
          simp only [Option.some.injEq] at hxy
          subst hxy
          obtain ⟨hx, hy, hne⟩ := swissScan_some hnd_se h3
          exact ⟨hne, (sortedByElo_perm cands).mem_iff.mp hx,
            (sortedByElo_perm cands).mem_iff.mp hy⟩
      | none =>
        have hlen2 : 2 ≤ shuffledAll.length := by
          rw [hsa.length_eq]; omega
        cases shuffledAll with
        | nil => simp at hlen2
        | cons x0 t =>
          cases t with
          | nil => simp at hlen2
          | cons y0 t' =>
            constructor
            · exact ⟨fun hno => by simp [lastResort] at hno,
                fun hl => absurd hl hlen⟩
            · intro x y hxy
              simp only [lastResort, Option.some.injEq, Prod.mk.injEq] at hxy
              have hne : x0.id ≠ y0.id := by
                rw [List.map_cons, List.map_cons, List.nodup_cons] at hnd_sa
                exact fun h => hnd_sa.1 (h ▸ List.mem_cons_self _ _)
              rw [← hxy.1, ← hxy.2]
              exact ⟨hne, hsa.mem_iff.mp (List.mem_cons_self _ _),
                hsa.mem_iff.mp (List.mem_cons_of_mem _ (List.mem_cons_self _ _))⟩

/-- Witness for `getNextPair_none_iff_and_distinct_from_pool` on the
one-candidate pool (identity shuffles), where `getNextPair` signals
termination with `none`. -/
theorem getNextPair_none_iff_witness :
    (getNextPair [(⟨0, (1500 : ℚ), 0⟩ : Candidate ℚ)] []
        (underCompared [(⟨0, (1500 : ℚ), 0⟩ : Candidate ℚ)])
        [(⟨0, (1500 : ℚ), 0⟩ : Candidate ℚ)] 0 = none ↔
      ([(⟨0, (1500 : ℚ), 0⟩ : Candidate ℚ)] : List (Candidate ℚ)).length < 2) ∧
    (∀ x y : Candidate ℚ,
      getNextPair [(⟨0, (1500 : ℚ), 0⟩ : Candidate ℚ)] []
          (underCompared [(⟨0, (1500 : ℚ), 0⟩ : Candidate ℚ)])
          [(⟨0, (1500 : ℚ), 0⟩ : Candidate ℚ)] 0 = some (x, y) →
      x.id ≠ y.id ∧ x ∈ [(⟨0, (1500 : ℚ), 0⟩ : Candidate ℚ)] ∧
        y ∈ [(⟨0, (1500 : ℚ), 0⟩ : Candidate ℚ)]) :=
  getNextPair_none_iff_and_distinct_from_pool
    [(⟨0, (1500 : ℚ), 0⟩ : Candidate ℚ)] [] _ _ 0 (by decide)
    (List.Perm.refl _) (List.Perm.refl _)

lemma underCompared_eq_sorted_of_le_one {R : Type} [LinearOrder R]
    {cands : List (Candidate R)} (h : ∀ p ∈ cands, p.comparisons ≤ 1) :
    underCompared cands = sortedByComparisons cands := by
  rw [underCompared, List.filter_eq_self]
  intro p hp
  have hle : p.comparisons ≤ 1 :=
    h p ((sortedByComparisons_perm cands).mem_iff.mp hp)
  simp only [decide_eq_true_eq]
  omega

lemma underCompared_perm_of_le_one {R : Type} [LinearOrder R]
    {cands : List (Candidate R)} (h : ∀ p ∈ cands, p.comparisons ≤ 1) :
    (underCompared cands).Perm cands := by
  rw [underCompared_eq_sorted_of_le_one h]
  exact sortedByComparisons_perm cands

/-- When the under-compared subset has at least two members and some pair
of the shuffled subset passes the 10-entry recency filter, `getNextPair`
returns the first such pair (step 2 of the scheduler). -/
lemma getNextPair_of_fresh_pair {R : Type} [LinearOrder R]
    {cands : List (Candidate R)} {hist : List (ComparisonRecord R)}
    {sU : List (Candidate R)} (sA : List (Candidate R)) (off : ℕ)
    (hlen : ¬ cands.length < 2) (hc : 2 ≤ (underCompared cands).length)
    (hW : ∃ pr ∈ pairsOf sU, (! recentlyCompared 10 hist pr.1 pr.2) = true) :
    ∃ x y, getNextPair cands hist sU sA off = some (x, y) ∧
      (x, y) ∈ pairsOf sU ∧ recentlyCompared 10 hist x y = false := by
  have hsome : (findFreshPair hist sU).isSome := List.find?_isSome.mpr hW
  obtain ⟨q, hq⟩ := Option.isSome_iff_exists.mp hsome
  refine ⟨q.1, q.2, ?_, ?_, ?_⟩
  · rw [getNextPair, if_neg hlen, if_pos hc, hq]
  · simpa using List.mem_of_find?_eq_some hq
  · have := List.find?_some hq
    simpa using this

lemma recentlyCompared_nil {R : Type} (k : ℕ) (x y : Candidate R) :
    recentlyCompared k [] x y = false := by
  simp [recentlyCompared, lastEntries]

/-- C4: the fairness scenario.  With three candidates `A,B,C` all at
1500/0, the first `nextPair` call draws its pair from the under-compared
subset, which is the whole pool; after `A beats B`
(`A=1516/1, B=1484/1, C=1500/0`, and `(A,B)` recorded in the history),
the next call returns a pair containing `C` (id 2) together with one of
`A` (id 0) or `B` (id 1) — for every permutation the shuffles produce. -/
theorem getNextPair_fairness_scenario
    (sU1 sA1 sU2 sA2 : List (Candidate ℝ)) (off1 off2 : ℕ)
    (hsu1 : sU1.Perm (underCompared
      [(⟨0, (1500 : ℝ), 0⟩ : Candidate ℝ), ⟨1, 1500, 0⟩, ⟨2, 1500, 0⟩]))
    (hsu2 : sU2.Perm (underCompared
      [(⟨0, (1516 : ℝ), 1⟩ : Candidate ℝ), ⟨1, 1484, 1⟩, ⟨2, 1500, 0⟩])) :
    ((underCompared
        [(⟨0, (1500 : ℝ), 0⟩ : Candidate ℝ), ⟨1, 1500, 0⟩, ⟨2, 1500, 0⟩]).Perm
          [(⟨0, (1500 : ℝ), 0⟩ : Candidate ℝ), ⟨1, 1500, 0⟩, ⟨2, 1500, 0⟩] ∧
      ∃ x y : Candidate ℝ,
        getNextPair [(⟨0, (1500 : ℝ), 0⟩ : Candidate ℝ), ⟨1, 1500, 0⟩,
            ⟨2, 1500, 0⟩] [] sU1 sA1 off1 = some (x, y) ∧
        x ∈ underCompared [(⟨0, (1500 : ℝ), 0⟩ : Candidate ℝ), ⟨1, 1500, 0⟩,
            ⟨2, 1500, 0⟩] ∧
        y ∈ underCompared [(⟨0, (1500 : ℝ), 0⟩ : Candidate ℝ), ⟨1, 1500, 0⟩,
            ⟨2, 1500, 0⟩]) ∧
    (∃ x y : Candidate ℝ,
      getNextPair [(⟨0, (1516 : ℝ), 1⟩ : Candidate ℝ), ⟨1, 1484, 1⟩,
          ⟨2, 1500, 0⟩]
        [(⟨0, 1, some 0, (1500 : ℝ), 1500, 0, 0⟩ : ComparisonRecord ℝ)]
        sU2 sA2 off2 = some (x, y) ∧
      ((x.id = 2 ∧ (y.id = 0 ∨ y.id = 1)) ∨
        (y.id = 2 ∧ (x.id = 0 ∨ x.id = 1)))) := by
  constructor
  · have hle1 : ∀ p ∈ [(⟨0, (1500 : ℝ), 0⟩ : Candidate ℝ), ⟨1, 1500, 0⟩,
        ⟨2, 1500, 0⟩], p.comparisons ≤ 1 := by
      intro p hp
      rcases (by simpa using hp : p = ⟨0, (1500 : ℝ), 0⟩ ∨
        p = ⟨1, 1500, 0⟩ ∨ p = ⟨2, 1500, 0⟩) with rfl | rfl | rfl <;> decide
    have hperm1 := underCompared_perm_of_le_one hle1
    refine ⟨hperm1, ?_⟩
    have hlen : ¬ ([(⟨0, (1500 : ℝ), 0⟩ : Candidate ℝ), ⟨1, 1500, 0⟩,
        ⟨2, 1500, 0⟩] : List (Candidate ℝ)).length < 2 := by simp
    have hc : 2 ≤ (underCompared [(⟨0, (1500 : ℝ), 0⟩ : Candidate ℝ),
        ⟨1, 1500, 0⟩, ⟨2, 1500, 0⟩]).length := by
      rw [hperm1.length_eq]; simp
    have hlu : sU1.length = 3 := by
      rw [hsu1.length_eq, hperm1.length_eq]; rfl
    obtain ⟨x0, y0, t0, rfl⟩ : ∃ x0 y0 t0, sU1 = x0 :: y0 :: t0 := by
      match sU1, hlu with
      | x0 :: y0 :: t0, _ => exact ⟨x0, y0, t0, rfl⟩
    have hW : ∃ pr ∈ pairsOf (x0 :: y0 :: t0),
        (! recentlyCompared 10 ([] : List (ComparisonRecord ℝ)) pr.1 pr.2)
          = true := by
      refine ⟨(x0, y0), ?_, by rw [recentlyCompared_nil]; rfl⟩
      rw [pairsOf, List.mem_append]
      exact Or.inl (List.mem_map_of_mem _ (List.mem_cons_self _ _))
    obtain ⟨x, y, hxy, hmem, _⟩ :=
      getNextPair_of_fresh_pair sA1 off1 hlen hc hW
    obtain ⟨hx, hy⟩ := pairsOf_mem hmem
    exact ⟨x, y, hxy, hsu1.mem_iff.mp hx, hsu1.mem_iff.mp hy⟩
  · have hle2 : ∀ p ∈ [(⟨0, (1516 : ℝ), 1⟩ : Candidate ℝ), ⟨1, 1484, 1⟩,
        ⟨2, 1500, 0⟩], p.comparisons ≤ 1 := by
      intro p hp
      rcases (by simpa using hp : p = ⟨0, (1516 : ℝ), 1⟩ ∨
        p = ⟨1, 1484, 1⟩ ∨ p = ⟨2, 1500, 0⟩) with rfl | rfl | rfl <;> decide
    have hperm2 := underCompared_perm_of_le_one hle2
    have hlen : ¬ ([(⟨0, (1516 : ℝ), 1⟩ : Candidate ℝ), ⟨1, 1484, 1⟩,
        ⟨2, 1500, 0⟩] : List (Candidate ℝ)).length < 2 := by simp
    have hc : 2 ≤ (underCompared [(⟨0, (1516 : ℝ), 1⟩ : Candidate ℝ),
        ⟨1, 1484, 1⟩, ⟨2, 1500, 0⟩]).length := by
      rw [hperm2.length_eq]; simp
    have hA : (⟨0, (1516 : ℝ), 1⟩ : Candidate ℝ) ∈ sU2 :=
      hsu2.mem_iff.mpr (hperm2.mem_iff.mpr (by simp))
    have hC : (⟨2, (1500 : ℝ), 0⟩ : Candidate ℝ) ∈ sU2 :=
      hsu2.mem_iff.mpr (hperm2.mem_iff.mpr (by simp))
    have hAC : (⟨0, (1516 : ℝ), 1⟩ : Candidate ℝ) ≠ ⟨2, 1500, 0⟩ := by
      intro h
      have := congrArg (fun p => p.id) h
      simp at this
    have hnd2 : ((sU2).map (fun p => p.id)).Nodup := by
      refine ((hsu2.map _).nodup_iff).mpr (underCompared_ids_nodup ?_)
      decide
    have hmain : ∃ x y : Candidate ℝ,
        getNextPair [(⟨0, (1516 : ℝ), 1⟩ : Candidate ℝ), ⟨1, 1484, 1⟩,
            ⟨2, 1500, 0⟩]
          [(⟨0, 1, some 0, (1500 : ℝ), 1500, 0, 0⟩ : ComparisonRecord ℝ)]
          sU2 sA2 off2 = some (x, y) ∧
        (x, y) ∈ pairsOf sU2 ∧
        recentlyCompared 10
          [(⟨0, 1, some 0, (1500 : ℝ), 1500, 0, 0⟩ : ComparisonRecord ℝ)]
          x y = false := by
      rcases pairsOf_cover hA hC hAC with hpr | hpr
      · exact getNextPair_of_fresh_pair sA2 off2 hlen hc
          ⟨(⟨0, (1516 : ℝ), 1⟩, ⟨2, 1500, 0⟩), hpr, by decide⟩
      · exact getNextPair_of_fresh_pair sA2 off2 hlen hc
          ⟨(⟨2, (1500 : ℝ), 0⟩, ⟨0, 1516, 1⟩), hpr, by decide⟩
    obtain ⟨x, y, hxy, hmem, hfresh⟩ := hmain
    obtain ⟨hx, hy⟩ := pairsOf_mem hmem
    have hxp : x ∈ [(⟨0, (1516 : ℝ), 1⟩ : Candidate ℝ), ⟨1, 1484, 1⟩,
        ⟨2, 1500, 0⟩] := hperm2.mem_iff.mp (hsu2.mem_iff.mp hx)
    have hyp : y ∈ [(⟨0, (1516 : ℝ), 1⟩ : Candidate ℝ), ⟨1, 1484, 1⟩,
        ⟨2, 1500, 0⟩] := hperm2.mem_iff.mp (hsu2.mem_iff.mp hy)
    have hxid : x.id = 0 ∨ x.id = 1 ∨ x.id = 2 := by
      rcases (by simpa using hxp : x = ⟨0, (1516 : ℝ), 1⟩ ∨
        x = ⟨1, 1484, 1⟩ ∨ x = ⟨2, 1500, 0⟩) with rfl | rfl | rfl <;> simp
    have hyid : y.id = 0 ∨ y.id = 1 ∨ y.id = 2 := by
      rcases (by simpa using hyp : y = ⟨0, (1516 : ℝ), 1⟩ ∨
        y = ⟨1, 1484, 1⟩ ∨ y = ⟨2, 1500, 0⟩) with rfl | rfl | rfl <;> simp
    have hne : x.id ≠ y.id := pairsOf_map_ne _ hnd2 hmem
    simp only [recentlyCompared, lastEntries] at hfresh
    simp at hfresh
    exact ⟨x, y, hxy, by omega⟩

/-- Witness for `getNextPair_fairness_scenario` with identity shuffles:
after `A beats B` the returned pair contains `C` (id 2). -/
theorem getNextPair_fairness_scenario_witness :
    ∃ x y : Candidate ℝ,
      getNextPair [(⟨0, (1516 : ℝ), 1⟩ : Candidate ℝ), ⟨1, 1484, 1⟩,
          ⟨2, 1500, 0⟩]
        [(⟨0, 1, some 0, (1500 : ℝ), 1500, 0, 0⟩ : ComparisonRecord ℝ)]
        (underCompared [(⟨0, (1516 : ℝ), 1⟩ : Candidate ℝ), ⟨1, 1484, 1⟩,
          ⟨2, 1500, 0⟩])
        [(⟨0, (1516 : ℝ), 1⟩ : Candidate ℝ), ⟨1, 1484, 1⟩, ⟨2, 1500, 0⟩]
        0 = some (x, y) ∧
      ((x.id = 2 ∧ (y.id = 0 ∨ y.id = 1)) ∨
        (y.id = 2 ∧ (x.id = 0 ∨ x.id = 1))) :=
  (getNextPair_fairness_scenario
    (underCompared [(⟨0, (1500 : ℝ), 0⟩ : Candidate ℝ), ⟨1, 1500, 0⟩,
      ⟨2, 1500, 0⟩])
    [(⟨0, (1500 : ℝ), 0⟩ : Candidate ℝ), ⟨1, 1500, 0⟩, ⟨2, 1500, 0⟩]
    (underCompared [(⟨0, (1516 : ℝ), 1⟩ : Candidate ℝ), ⟨1, 1484, 1⟩,
      ⟨2, 1500, 0⟩])
    [(⟨0, (1516 : ℝ), 1⟩ : Candidate ℝ), ⟨1, 1484, 1⟩, ⟨2, 1500, 0⟩]
    0 0 (List.Perm.refl _) (List.Perm.refl _)).2

/-!
## Confidence estimator (src/app.js lines 451–519)

The JavaScript reads `state.candidates`, `state.targetCount`,
`state.comparisonsCompleted`, and the module-level `previousTopNSets`
history it mutates; the embedding passes that state explicitly and
returns the confidence value together with the updated history.
-/

/-- The state read (and, for the snapshot history, written) by
`calculateConfidence`. -/
structure ConfidenceState (R : Type) where
  candidates : List (Candidate R)
  targetCount : ℕ
  comparisonsCompleted : ℕ
  previousTopNSets : List (Finset ℕ)

/-- The set-identity check of src/app.js lines 486–497: same size and
every member of the current set also in the previous one. -/
def setsIdentical (prevSet currSet : Finset ℕ) : Bool :=
  decide (prevSet.card = currSet.card) && decide (∀ i ∈ currSet, i ∈ prevSet)

/-- `currentTopNIds`: the id set of the top `targetN` candidates by Elo
descending — src/app.js lines 466–467. -/
def currentTopNIds {R : Type} [LinearOrder R] (cands : List (Candidate R))
    (targetN : ℕ) : Finset ℕ :=
  (((sortedByElo cands).take targetN).map (fun p => p.id)).toFinset

/-- `calculateConfidence()` — src/app.js lines 454–519.  Returns the
confidence value and the updated snapshot history. -/
def calculateConfidence {R : Type} [LinearOrder R] (s : ConfidenceState R) :
    ℤ × List (Finset ℕ) :=
  let n := s.candidates.length
  let targetN := min s.targetCount n
  if targetN < 2 ∨ s.comparisonsCompleted < 2 then (0, s.previousTopNSets)
  else
    let currentTopN := currentTopNIds s.candidates targetN
    let hist0 := s.previousTopNSets ++ [currentTopN]
    let hist := if 10 < hist0.length then hist0.tail else hist0
    if hist.length < 3 then
      (min 20 (s.comparisonsCompleted * 5 : ℤ), hist)
    else
      let stableCount :=
        (hist.zip hist.tail).countP (fun pr => setsIdentical pr.1 pr.2)
      let stability : ℚ := (stableCount : ℚ) / ((hist.length : ℚ) - 1)
      let comparedCount :=
        (s.candidates.filter (fun p => 1 ≤ p.comparisons)).length
      let coverage : ℚ := (comparedCount : ℚ) / (n : ℚ)
      (min 100 (round (coverage * 30 + stability * 70)), hist)

lemma confidence_main_nonneg (a b c d : ℕ) (h : 3 ≤ d) :
    0 ≤ min (100 : ℤ)
      (round ((a : ℚ) / (b : ℚ) * 30 + (c : ℚ) / ((d : ℚ) - 1) * 70)) := by
  have hcov : (0 : ℚ) ≤ (a : ℚ) / (b : ℚ) :=
    div_nonneg (by positivity) (by positivity)
  have hd : (3 : ℚ) ≤ (d : ℚ) := by exact_mod_cast h
  have hstab : (0 : ℚ) ≤ (c : ℚ) / ((d : ℚ) - 1) :=
    div_nonneg (by positivity) (by linarith)
  refine le_min (by norm_num) ?_
  rw [round_eq, Int.le_floor]
  push_cast
  nlinarith

/-- C5: the confidence value is always an integer in `[0, 100]`, and it is
0 whenever `N = min(targetCount, candidateCount) < 2` or
`comparisonsCompleted < 2`. -/
theorem calculateConfidence_range_and_zero {R : Type} [LinearOrder R]
    (s : ConfidenceState R) :
    (0 ≤ (calculateConfidence s).1 ∧ (calculateConfidence s).1 ≤ 100) ∧
    (min s.targetCount s.candidates.length < 2 ∨
        s.comparisonsCompleted < 2 →
      (calculateConfidence s).1 = 0) := by
  by_cases h1 : min s.targetCount s.candidates.length < 2 ∨
      s.comparisonsCompleted < 2
  · rw [calculateConfidence, if_pos h1]
    exact ⟨⟨le_refl 0, by norm_num⟩, fun _ => rfl⟩
  · refine ⟨?_, fun h => absurd h h1⟩
    rw [calculateConfidence, if_neg h1]
    by_cases h2 :
        (if 10 < (s.previousTopNSets ++
            [currentTopNIds s.candidates
              (min s.targetCount s.candidates.length)]).length
         then (s.previousTopNSets ++
            [currentTopNIds s.candidates
              (min s.targetCount s.candidates.length)]).tail
         else s.previousTopNSets ++
            [currentTopNIds s.candidates
              (min s.targetCount s.candidates.length)]).length < 3
    · rw [if_pos h2]
      refine ⟨le_min (by norm_num) (by positivity), ?_⟩
      exact le_trans (min_le_left _ _) (by norm_num)
    · rw [if_neg h2]
      push_neg at h2
      exact ⟨confidence_main_nonneg _ _ _ _ h2, min_le_left _ _⟩

/-- Witness for `calculateConfidence_range_and_zero`: the empty pool with
no comparisons yields confidence 0. -/
theorem calculateConfidence_range_and_zero_witness :
    (calculateConfidence
      (⟨[], 25, 0, []⟩ : ConfidenceState ℚ)).1 = 0 :=
  (calculateConfidence_range_and_zero
    (⟨[], 25, 0, []⟩ : ConfidenceState ℚ)).2 (by decide)

/-- C6 counterexample: a call made while `comparisonsCompleted < 2` (here
the empty pool before any comparison) leaves the snapshot history
unchanged instead of appending a snapshot, refuting "every call appends
exactly one snapshot". -/
theorem calculateConfidence_snapshot_counterexample :
    (calculateConfidence (⟨[], 25, 0, []⟩ : ConfidenceState ℚ)).2.length ≠
      (⟨[], 25, 0, []⟩ : ConfidenceState ℚ).previousTopNSets.length + 1 := by
  decide

/-- C6 (amended): a call made with `N = min(targetCount, candidateCount)
≥ 2` and `comparisonsCompleted ≥ 2` appends exactly one snapshot of the
current top-N id set, evicting the oldest snapshot when the capacity of
10 would be exceeded; a call failing that guard leaves the history
unchanged; and the history never exceeds capacity 10. -/
theorem calculateConfidence_snapshot_policy {R : Type} [LinearOrder R]
    (s : ConfidenceState R) :
    (min s.targetCount s.candidates.length < 2 ∨
        s.comparisonsCompleted < 2 →
      (calculateConfidence s).2 = s.previousTopNSets) ∧
    (2 ≤ min s.targetCount s.candidates.length →
      2 ≤ s.comparisonsCompleted →
      ((s.previousTopNSets.length < 10 →
        (calculateConfidence s).2 =
          s.previousTopNSets ++
            [currentTopNIds s.candidates
              (min s.targetCount s.candidates.length)]) ∧
       (10 ≤ s.previousTopNSets.length →
        (calculateConfidence s).2 =
          (s.previousTopNSets ++
            [currentTopNIds s.candidates
              (min s.targetCount s.candidates.length)]).tail))) ∧
    (s.previousTopNSets.length ≤ 10 →
      (calculateConfidence s).2.length ≤ 10) := by
  by_cases h1 : min s.targetCount s.candidates.length < 2 ∨
      s.comparisonsCompleted < 2
  · rw [calculateConfidence, if_pos h1]
    refine ⟨fun _ => rfl, fun ha hb => ?_, fun h => h⟩
    exact absurd h1 (by omega)
  · have hsnd : (calculateConfidence s).2 =
        (if 10 < (s.previousTopNSets ++
            [currentTopNIds s.candidates
              (min s.targetCount s.candidates.length)]).length
         then (s.previousTopNSets ++
            [currentTopNIds s.candidates
              (min s.targetCount s.candidates.length)]).tail
         else s.previousTopNSets ++
            [currentTopNIds s.candidates
              (min s.targetCount s.candidates.length)]) := by
      rw [calculateConfidence, if_neg h1]
      by_cases h2 :
          (if 10 < (s.previousTopNSets ++
              [currentTopNIds s.candidates
                (min s.targetCount s.candidates.length)]).length
           then (s.previousTopNSets ++
              [currentTopNIds s.candidates
                (min s.targetCount s.candidates.length)]).tail
           else s.previousTopNSets ++
              [currentTopNIds s.candidates
                (min s.targetCount s.candidates.length)]).length < 3
      · rw [if_pos h2]
      · rw [if_neg h2]
    have hlen0 : (s.previousTopNSets ++
        [currentTopNIds s.candidates
          (min s.targetCount s.candidates.length)]).length =
        s.previousTopNSets.length + 1 := by simp
    refine ⟨fun h => absurd h h1, fun _ _ => ⟨?_, ?_⟩, ?_⟩
    · intro hlt
      rw [hsnd, if_neg (by omega)]
    · intro hge
      rw [hsnd, if_pos (by omega)]
    · intro hcap
      rw [hsnd]
      by_cases h3 : 10 < (s.previousTopNSets ++
          [currentTopNIds s.candidates
            (min s.targetCount s.candidates.length)]).length
      · rw [if_pos h3]
        simp only [List.length_tail]
        omega
      · rw [if_neg h3]
        omega

/-- Witness for `calculateConfidence_snapshot_policy`: a two-candidate
pool with two comparisons done and an empty history gains exactly the
one snapshot. -/
theorem calculateConfidence_snapshot_policy_witness :
    (calculateConfidence
        (⟨[⟨0, (1 : ℚ), 1⟩, ⟨1, 0, 1⟩], 2, 2, []⟩ : ConfidenceState ℚ)).2 =
      ([] : List (Finset ℕ)) ++
        [currentTopNIds [(⟨0, (1 : ℚ), 1⟩ : Candidate ℚ), ⟨1, 0, 1⟩]
          (min 2 2)] :=
  ((calculateConfidence_snapshot_policy
      (⟨[⟨0, (1 : ℚ), 1⟩, ⟨1, 0, 1⟩], 2, 2, []⟩ : ConfidenceState ℚ)).2.1
    (by decide) (by decide)).1 (by decide)

/-!
## Comparison resolution and undo (src/app.js lines 1731–1800)

`confirmComparison` / `skipComparison` push a record capturing both
candidates' pre-update rating and comparison count verbatim, then apply
the Elo update; `undoComparison` pops the most recent record and writes
the captured values back.  The JavaScript mutates candidate objects found
by id inside `state.candidates`; the embedding updates the first
list entry with the matching id.
-/

/-- The driver state touched by the comparison-resolution flow. -/
structure RankState where
  candidates : List (Candidate ℝ)
  comparisonHistory : List (ComparisonRecord ℝ)
  comparisonsCompleted : ℕ

/-- Replace the first candidate whose id is `i` by `v` (the effect of a
JavaScript in-place mutation through a `find(...)` reference). -/
def updateFirst {R : Type} (cands : List (Candidate R)) (i : ℕ)
    (v : Candidate R) : List (Candidate R) :=
  match cands with
  | [] => []
  | c :: rest => if c.id = i then v :: rest else c :: updateFirst rest i v

/-- `confirmComparison()` — src/app.js lines 1731–1757: push the undo
record (pre-update values verbatim), look up winner and loser by id, and
apply `updateEloRatings` when both are found. -/
noncomputable def confirmComparison (s : RankState)
    (photoA photoB : Candidate ℝ) (winnerId : ℕ) : RankState :=
  let rec0 : ComparisonRecord ℝ :=
    ⟨photoA.id, photoB.id, some winnerId, photoA.elo, photoB.elo,
      photoA.comparisons, photoB.comparisons⟩
  let hist := s.comparisonHistory ++ [rec0]
  match s.candidates.find? (fun p => p.id = winnerId),
      s.candidates.find? (fun p =>
        p.id ≠ winnerId ∧ (p.id = photoA.id ∨ p.id = photoB.id)) with
  | some w, some l =>
      ⟨updateFirst (updateFirst s.candidates w.id (updateEloRatings w l).1)
          l.id (updateEloRatings w l).2,
        hist, s.comparisonsCompleted + 1⟩
  | _, _ => ⟨s.candidates, hist, s.comparisonsCompleted + 1⟩

/-- `skipComparison()` — src/app.js lines 1759–1778: push the undo record
with `winner: null` and apply `updateEloTie` to the current pair (the JS
mutates the pair references, which alias the candidate list entries). -/
noncomputable def skipComparison (s : RankState)
    (photoA photoB : Candidate ℝ) : RankState :=
  let rec0 : ComparisonRecord ℝ :=
    ⟨photoA.id, photoB.id, none, photoA.elo, photoB.elo,
      photoA.comparisons, photoB.comparisons⟩
  let hist := s.comparisonHistory ++ [rec0]
  ⟨updateFirst
      (updateFirst s.candidates photoA.id (updateEloTie photoA photoB).1)
      photoB.id (updateEloTie photoA photoB).2,
    hist, s.comparisonsCompleted + 1⟩

/-- `undoComparison()` — src/app.js lines 1780–1800: no-op on empty
history, otherwise pop the last record and restore both candidates'
rating and comparison count from the stored pre-update values. -/
def undoComparison (s : RankState) : RankState :=
  match s.comparisonHistory.getLast? with
  | none => s
  | some last =>
    let hist := s.comparisonHistory.dropLast
    let candsA :=
      match s.candidates.find? (fun p => p.id = last.a) with
      | some pA => updateFirst s.candidates last.a
          { pA with elo := last.prevEloA, comparisons := last.prevCompA }
      | none => s.candidates
    let cands :=
      match candsA.find? (fun p => p.id = last.b) with
      | some pB => updateFirst candsA last.b
          { pB with elo := last.prevEloB, comparisons := last.prevCompB }
      | none => candsA
    ⟨cands, hist, s.comparisonsCompleted - 1⟩

lemma cand_eq_of_id_eq {R : Type} {cs : List (Candidate R)}
    (hnd : (cs.map (fun p => p.id)).Nodup) {a b : Candidate R}
    (ha : a ∈ cs) (hb : b ∈ cs) (h : a.id = b.id) : a = b := by
  induction cs with
  | nil => simp at ha
  | cons x rest ih =>
    rw [List.map_cons, List.nodup_cons] at hnd
    rcases List.mem_cons.mp ha with rfl | ha'
    · rcases List.mem_cons.mp hb with rfl | hb'
      · rfl
      · exact absurd (h ▸ List.mem_map_of_mem _ hb') hnd.1
    · rcases List.mem_cons.mp hb with rfl | hb'
      · exact absurd (h ▸ List.mem_map_of_mem _ ha') hnd.1
      · exact ih hnd.2 ha' hb'

lemma find?_id_unique {R : Type} {cs : List (Candidate R)}
    (hnd : (cs.map (fun p => p.id)).Nodup) {c : Candidate R} (hc : c ∈ cs)
    (q : Candidate R → Bool) (hqc : q c = true)
    (hq : ∀ x, q x = true → x.id = c.id) : cs.find? q = some c := by
  induction cs with
  | nil => simp at hc
  | cons x rest ih =>
    rw [List.map_cons, List.nodup_cons] at hnd
    cases hqx : q x with
    | true =>
      rw [List.find?_cons_of_pos _ hqx]
      rcases List.mem_cons.mp hc with rfl | hc'
      · rfl
      · exact absurd ((hq x hqx) ▸ List.mem_map_of_mem _ hc') hnd.1
    | false =>
      rw [List.find?_cons_of_neg _ (by simp [hqx])]
      rcases List.mem_cons.mp hc with rfl | hc'
      · rw [hqc] at hqx; exact absurd hqx (by simp)
      · exact ih hnd.2 hc'

lemma updateFirst_ids {R : Type} {i : ℕ} {v : Candidate R} (hv : v.id = i) :
    ∀ cs : List (Candidate R),
      (updateFirst cs i v).map (fun p => p.id) = cs.map (fun p => p.id) := by
  intro cs
  induction cs with
  | nil => rfl
  | cons c rest ih =>
    by_cases h : c.id = i
    · rw [updateFirst, if_pos h]
      simp [hv, h]
    · rw [updateFirst, if_neg h]
      simp [ih]

lemma updateFirst_eq_map {R : Type} {i : ℕ} {v : Candidate R}
    {cs : List (Candidate R)} (hnd : (cs.map (fun p => p.id)).Nodup) :
    updateFirst cs i v = cs.map (fun c => if c.id = i then v else c) := by
  induction cs with
  | nil => rfl
  | cons c rest ih =>
    rw [List.map_cons, List.nodup_cons] at hnd
    by_cases h : c.id = i
    · rw [updateFirst, if_pos h, List.map_cons, if_pos h]
      have : ∀ x ∈ rest, (if x.id = i then v else x) = x := by
        intro x hx
        rw [if_neg]
        intro hxi
        exact hnd.1 (h ▸ hxi ▸ List.mem_map_of_mem _ hx)
      rw [List.map_congr_left this]
      simp
    · rw [updateFirst, if_neg h, List.map_cons, if_neg h, ih hnd.2]

lemma mem_updateFirst {R : Type} {cs : List (Candidate R)}
    (hnd : (cs.map (fun p => p.id)).Nodup) {a u : Candidate R}
    (ha : a ∈ cs) (hu : u.id = a.id) : u ∈ updateFirst cs a.id u := by
  rw [updateFirst_eq_map hnd]
  have := List.mem_map_of_mem (fun c => if c.id = a.id then u else c) ha
  simpa using this

lemma find?_double_update {R : Type} {cs : List (Candidate R)}
    (hnd : (cs.map (fun p => p.id)).Nodup) {a b u v : Candidate R}
    (ha : a ∈ cs) (hab : a.id ≠ b.id) (hu : u.id = a.id) (hv : v.id = b.id) :
    (updateFirst (updateFirst cs a.id u) b.id v).find?
      (fun p => p.id = a.id) = some u := by
  have hnd1 : ((updateFirst cs a.id u).map (fun p => p.id)).Nodup := by
    rw [updateFirst_ids hu]; exact hnd
  have hnd2 : ((updateFirst (updateFirst cs a.id u) b.id v).map
      (fun p => p.id)).Nodup := by
    rw [updateFirst_ids hv]; exact hnd1
  have hmem1 : u ∈ updateFirst cs a.id u := mem_updateFirst hnd ha hu
  have hmem2 : u ∈ updateFirst (updateFirst cs a.id u) b.id v := by
    rw [updateFirst_eq_map hnd1]
    have := List.mem_map_of_mem (fun c => if c.id = b.id then v else c) hmem1
    simpa [hu, hab] using this
  refine find?_id_unique hnd2 hmem2 _ (by simp [hu]) ?_
  intro x hx
  simp only [decide_eq_true_eq] at hx
  rw [hx, hu]

lemma find?_after_restore {R : Type} {cs : List (Candidate R)}
    (hnd : (cs.map (fun p => p.id)).Nodup) {a b u v w : Candidate R}
    (hb : b ∈ cs) (hab : a.id ≠ b.id) (hu : u.id = a.id) (hv : v.id = b.id)
    (hw : w.id = a.id) :
    (updateFirst (updateFirst (updateFirst cs a.id u) b.id v) a.id w).find?
      (fun p => p.id = b.id) = some v := by
  have hba : b.id ≠ a.id := fun h => hab h.symm
  have hnd1 : ((updateFirst cs a.id u).map (fun p => p.id)).Nodup := by
    rw [updateFirst_ids hu]; exact hnd
  have hnd2 : ((updateFirst (updateFirst cs a.id u) b.id v).map
      (fun p => p.id)).Nodup := by
    rw [updateFirst_ids hv]; exact hnd1
  have hnd3 : ((updateFirst (updateFirst (updateFirst cs a.id u) b.id v)
      a.id w).map (fun p => p.id)).Nodup := by
    rw [updateFirst_ids hw]; exact hnd2
  have hmem1 : b ∈ updateFirst cs a.id u := by
    rw [updateFirst_eq_map hnd]
    have := List.mem_map_of_mem (fun c => if c.id = a.id then u else c) hb
    simpa [hba] using this
  have hmem2 : v ∈ updateFirst (updateFirst cs a.id u) b.id v :=
    mem_updateFirst hnd1 hmem1 hv
  have hmem3 : v ∈ updateFirst (updateFirst (updateFirst cs a.id u) b.id v)
      a.id w := by
    rw [updateFirst_eq_map hnd2]
    have := List.mem_map_of_mem (fun c => if c.id = a.id then w else c) hmem2
    simpa [hv, hba] using this
  refine find?_id_unique hnd3 hmem3 _ (by simp [hv]) ?_
  intro x hx
  simp only [decide_eq_true_eq] at hx
  rw [hx, hv]

lemma double_update_restore {R : Type} {cs : List (Candidate R)}
    (hnd : (cs.map (fun p => p.id)).Nodup) {a b u v : Candidate R}
    (ha : a ∈ cs) (hb : b ∈ cs) (hab : a.id ≠ b.id)
    (hu : u.id = a.id) (hv : v.id = b.id) :
    updateFirst (updateFirst (updateFirst (updateFirst cs a.id u) b.id v)
      a.id a) b.id b = cs := by
  have hba : b.id ≠ a.id := fun h => hab h.symm
  have hnd1 : ((updateFirst cs a.id u).map (fun p => p.id)).Nodup := by
    rw [updateFirst_ids hu]; exact hnd
  have hnd2 : ((updateFirst (updateFirst cs a.id u) b.id v).map
      (fun p => p.id)).Nodup := by
    rw [updateFirst_ids hv]; exact hnd1
  have hnd3 : ((updateFirst (updateFirst (updateFirst cs a.id u) b.id v)
      a.id a).map (fun p => p.id)).Nodup := by
    rw [updateFirst_ids rfl]; exact hnd2
  rw [updateFirst_eq_map hnd3, updateFirst_eq_map hnd2,
    updateFirst_eq_map hnd1, updateFirst_eq_map hnd]
  rw [List.map_map, List.map_map, List.map_map]
  refine (List.map_congr_left ?_).trans (List.map_id cs)
  intro c hc
  by_cases hca : c.id = a.id
  · have hceq : c = a := cand_eq_of_id_eq hnd hc ha hca
    subst hceq
    simp [Function.comp, hu, hab]
  · by_cases hcb : c.id = b.id
    · have hceq : c = b := cand_eq_of_id_eq hnd hc hb hcb
      subst hceq
      simp [Function.comp, hv, hba, hcb]
    · simp [Function.comp, hca, hcb]

lemma updateFirst_comm {R : Type} {cs : List (Candidate R)}
    (hnd : (cs.map (fun p => p.id)).Nodup) {i j : ℕ} (hij : i ≠ j)
    {u v : Candidate R} (hu : u.id = i) (hv : v.id = j) :
    updateFirst (updateFirst cs i u) j v =
      updateFirst (updateFirst cs j v) i u := by
  have hnd1 : ((updateFirst cs i u).map (fun p => p.id)).Nodup := by
    rw [updateFirst_ids hu]; exact hnd
  have hnd2 : ((updateFirst cs j v).map (fun p => p.id)).Nodup := by
    rw [updateFirst_ids hv]; exact hnd
  rw [updateFirst_eq_map hnd1, updateFirst_eq_map hnd,
    updateFirst_eq_map hnd2, updateFirst_eq_map hnd]
  rw [List.map_map, List.map_map]
  refine List.map_congr_left ?_
  intro c _
  by_cases hci : c.id = i
  · simp [Function.comp, hci, hij, hu, hv, Ne.symm hij]
  · by_cases hcj : c.id = j
    · simp [Function.comp, hci, hcj, hu, hv, Ne.symm hij]
    · simp [Function.comp, hci, hcj]

/-- C2: round-trip law.  Applying a win (`confirmComparison`) or a tie
(`skipComparison`) and then undoing the recorded comparison restores both
candidates' rating and comparison count — indeed the entire state —
exactly, because the pre-update values are stored verbatim in the pushed
record and written back unchanged. -/
theorem apply_then_undo_roundtrip (s : RankState)
    (photoA photoB : Candidate ℝ) (winnerId : ℕ)
    (hnd : (s.candidates.map (fun p => p.id)).Nodup)
    (hA : photoA ∈ s.candidates) (hB : photoB ∈ s.candidates)
    (hABid : photoA.id ≠ photoB.id)
    (hw : winnerId = photoA.id ∨ winnerId = photoB.id) :
    undoComparison (confirmComparison s photoA photoB winnerId) = s ∧
    undoComparison (skipComparison s photoA photoB) = s := by
  obtain ⟨cs, hist, n⟩ := s
  simp only at hnd hA hB
  have hBA : photoB.id ≠ photoA.id := Ne.symm hABid
  constructor
  · rcases hw with hw | hw
    · subst hw
      have hwin : cs.find? (fun p => p.id = photoA.id) = some photoA := by
        refine find?_id_unique hnd hA _ (by simp) ?_
        intro x hx
        simpa using hx
      have hlos : cs.find? (fun p =>
          p.id ≠ photoA.id ∧ (p.id = photoA.id ∨ p.id = photoB.id)) =
          some photoB := by
        refine find?_id_unique hnd hB _ (by simp [hBA]) ?_
        intro x hx
        simp only [decide_eq_true_eq] at hx
        rcases hx.2 with h | h
        · exact absurd h hx.1
        · exact h
      have h1 := find?_double_update (u := (updateEloRatings photoA photoB).1)
        (v := (updateEloRatings photoA photoB).2) hnd hA hABid rfl rfl
      have h2 := find?_after_restore (u := (updateEloRatings photoA photoB).1)
        (v := (updateEloRatings photoA photoB).2) (w := photoA)
        hnd hB hABid rfl rfl rfl
      have hrest1 : ({ (updateEloRatings photoA photoB).1 with
          elo := photoA.elo, comparisons := photoA.comparisons } :
            Candidate ℝ) = photoA := rfl
      have hrest2 : ({ (updateEloRatings photoA photoB).2 with
          elo := photoB.elo, comparisons := photoB.comparisons } :
            Candidate ℝ) = photoB := rfl
      have h3 := double_update_restore (u := (updateEloRatings photoA photoB).1)
        (v := (updateEloRatings photoA photoB).2) hnd hA hB hABid rfl rfl
      simp only [confirmComparison, hwin, hlos, undoComparison,
        List.getLast?_concat, List.dropLast_concat, h1, hrest1, h2, hrest2, h3]
      simp
    · subst hw
      have hwin : cs.find? (fun p => p.id = photoB.id) = some photoB := by
        refine find?_id_unique hnd hB _ (by simp) ?_
        intro x hx
        simpa using hx
      have hlos : cs.find? (fun p =>
          p.id ≠ photoB.id ∧ (p.id = photoA.id ∨ p.id = photoB.id)) =
          some photoA := by
        refine find?_id_unique hnd hA _ (by simp [hABid]) ?_
        intro x hx
        simp only [decide_eq_true_eq] at hx
        rcases hx.2 with h | h
        · exact h
        · exact absurd h hx.1
      have hcomm := updateFirst_comm (u := (updateEloRatings photoB photoA).1)
        (v := (updateEloRatings photoB photoA).2) hnd hBA rfl rfl
      have h1 := find?_double_update (u := (updateEloRatings photoB photoA).2)
        (v := (updateEloRatings photoB photoA).1) hnd hA hABid rfl rfl
      have h2 := find?_after_restore (u := (updateEloRatings photoB photoA).2)
        (v := (updateEloRatings photoB photoA).1) (w := photoA)
        hnd hB hABid rfl rfl rfl
      have hrest1 : ({ (updateEloRatings photoB photoA).2 with
          elo := photoA.elo, comparisons := photoA.comparisons } :
            Candidate ℝ) = photoA := rfl
      have hrest2 : ({ (updateEloRatings photoB photoA).1 with
          elo := photoB.elo, comparisons := photoB.comparisons } :
            Candidate ℝ) = photoB := rfl
      have h3 := double_update_restore (u := (updateEloRatings photoB photoA).2)
        (v := (updateEloRatings photoB photoA).1) hnd hA hB hABid rfl rfl
      simp only [confirmComparison, hwin, hlos, undoComparison,
        List.getLast?_concat, List.dropLast_concat, hcomm, h1, hrest1, h2,
        hrest2, h3]
      simp
  · have h1 := find?_double_update (u := (updateEloTie photoA photoB).1)
      (v := (updateEloTie photoA photoB).2) hnd hA hABid rfl rfl
    have h2 := find?_after_restore (u := (updateEloTie photoA photoB).1)
      (v := (updateEloTie photoA photoB).2) (w := photoA)
      hnd hB hABid rfl rfl rfl
    have hrest1 : ({ (updateEloTie photoA photoB).1 with
        elo := photoA.elo, comparisons := photoA.comparisons } :
          Candidate ℝ) = photoA := rfl
    have hrest2 : ({ (updateEloTie photoA photoB).2 with
        elo := photoB.elo, comparisons := photoB.comparisons } :
          Candidate ℝ) = photoB := rfl
    have h3 := double_update_restore (u := (updateEloTie photoA photoB).1)
      (v := (updateEloTie photoA photoB).2) hnd hA hB hABid rfl rfl
    simp only [skipComparison, undoComparison, List.getLast?_concat,
      List.dropLast_concat, h1, hrest1, h2, hrest2, h3]
    simp

/-- Witness for `apply_then_undo_roundtrip`: two fresh 1500-rated
candidates, `A` declared winner, then undone; likewise for a tie. -/
theorem apply_then_undo_roundtrip_witness :
    undoComparison (confirmComparison
        (⟨[⟨0, (1500 : ℝ), 0⟩, ⟨1, 1500, 0⟩], [], 0⟩ : RankState)
        ⟨0, (1500 : ℝ), 0⟩ ⟨1, 1500, 0⟩ 0) =
      (⟨[⟨0, (1500 : ℝ), 0⟩, ⟨1, 1500, 0⟩], [], 0⟩ : RankState) ∧
    undoComparison (skipComparison
        (⟨[⟨0, (1500 : ℝ), 0⟩, ⟨1, 1500, 0⟩], [], 0⟩ : RankState)
        ⟨0, (1500 : ℝ), 0⟩ ⟨1, 1500, 0⟩) =
      (⟨[⟨0, (1500 : ℝ), 0⟩, ⟨1, 1500, 0⟩], [], 0⟩ : RankState) :=
  apply_then_undo_roundtrip
    (⟨[⟨0, (1500 : ℝ), 0⟩, ⟨1, 1500, 0⟩], [], 0⟩ : RankState)
    ⟨0, (1500 : ℝ), 0⟩ ⟨1, 1500, 0⟩ 0 (by decide)
    (List.mem_cons_self _ _)
    (List.mem_cons_of_mem _ (List.mem_cons_self _ _))
    (by decide) (Or.inl rfl)
